import Mathlib

/-!
Verification of the portfolio voice-assistant backend.

Shallow embedding of the code in `src/`:
- `services/session.py` (session history ring buffer),
- `services/deepgram.py` (`DeepgramTTSClient` send/flush/receive machinery),
- `services/retrieval.py` (`retrieve_context` candidate selection/ordering),
- `flows/voice.py` (`VoiceFlow` orchestrator state machine and the
  sentence-boundary scan inside `_generate_response`).

Pure fragments are embedded as Lean functions over `List Char` / `List`;
the concurrent orchestrator is embedded as an explicit event-step relation
(see the `VoiceFlow` section below for the scheduling assumptions).
-/

namespace Portfolio

/-! ### Session store (`services/session.py`)

`save_session_message` appends a `{role, content}` record and keeps only the
last `MAX_HISTORY_MESSAGES` entries (`history[-MAX_HISTORY_MESSAGES:]`).
-/

structure ChatMessage where
  role : String
  content : String
deriving DecidableEq

/-- `MAX_HISTORY_MESSAGES = 10` from `config.py`. -/
def MAX_HISTORY_MESSAGES : Nat := 10

/-- One `save_session_message` call, acting on the stored history list:
append the new message, then truncate to the last `MAX_HISTORY_MESSAGES`
entries (Python `history[-N:]` for a list longer than `N`). -/
def save_session_message (history : List ChatMessage) (role content : String) :
    List ChatMessage :=
  let h := history ++ [⟨role, content⟩]
  if MAX_HISTORY_MESSAGES < h.length then h.drop (h.length - MAX_HISTORY_MESSAGES) else h

/-- Replay a sequence of `save_session_message` calls starting from an empty
history (a fresh session). -/
def saveAll (msgs : List ChatMessage) : List ChatMessage :=
  msgs.foldl (fun h m => save_session_message h m.role m.content) []

/-- The last-`n` suffix of a list, `l[-n:]` in Python. -/
def lastN (n : Nat) (l : List α) : List α := l.drop (l.length - n)

theorem lastN_length_le (n : Nat) (l : List α) : (lastN n l).length ≤ n := by
  simp only [lastN, List.length_drop]
  omega

theorem lastN_of_le {n : Nat} {l : List α} (h : l.length ≤ n) : lastN n l = l := by
  simp only [lastN]
  have : l.length - n = 0 := by omega
  simp [this]

theorem lastN_drop_front (n k : Nat) (x y : List α) (h1 : k ≤ x.length)
    (h2 : n ≤ x.length - k + y.length) :
    lastN n (x.drop k ++ y) = lastN n (x ++ y) := by
  simp only [lastN, List.length_append, List.length_drop]
  have hsplit : (x ++ y).drop k = x.drop k ++ y := by
    rw [List.drop_append_eq_append_drop, show k - x.length = 0 by omega, List.drop_zero]
  calc (x.drop k ++ y).drop (x.length - k + y.length - n)
      = ((x ++ y).drop k).drop (x.length - k + y.length - n) := by rw [hsplit]
    _ = (x ++ y).drop (k + (x.length - k + y.length - n)) := by rw [List.drop_drop]
    _ = (x ++ y).drop (x.length + y.length - n) := by congr 1; omega

theorem lastN_idem_append (n : Nat) (x y : List α) :
    lastN n (lastN n x ++ y) = lastN n (x ++ y) := by
  by_cases hx : x.length ≤ n
  · rw [lastN_of_le hx]
  · have hq : lastN n x = x.drop (x.length - n) := rfl
    rw [hq, lastN_drop_front n (x.length - n) x y (by omega) (by omega)]

theorem save_session_message_eq_lastN (h : List ChatMessage) (r c : String) :
    save_session_message h r c = lastN MAX_HISTORY_MESSAGES (h ++ [⟨r, c⟩]) := by
  simp only [save_session_message]
  split
  · rfl
  · next hlt => rw [lastN_of_le (by omega)]

theorem saveAll_loop (msgs : List ChatMessage) :
    ∀ h : List ChatMessage, h.length ≤ MAX_HISTORY_MESSAGES →
      msgs.foldl (fun h m => save_session_message h m.role m.content) h
        = lastN MAX_HISTORY_MESSAGES (h ++ msgs) := by
  induction msgs with
  | nil =>
      intro h hle
      simp only [List.foldl_nil, List.append_nil]
      exact (lastN_of_le hle).symm
  | cons m rest ih =>
      intro h _
      simp only [List.foldl_cons]
      rw [save_session_message_eq_lastN, ih _ (lastN_length_le _ _), lastN_idem_append]
      simp

/-- C8: after any sequence of `save_session_message` calls on a fresh session,
the stored history is exactly the last `MAX_HISTORY_MESSAGES` appended entries
in insertion order (in particular its length is at most that bound). -/
theorem sessionHistory_bounded (msgs : List ChatMessage) :
    saveAll msgs = lastN MAX_HISTORY_MESSAGES msgs ∧
    (saveAll msgs).length ≤ MAX_HISTORY_MESSAGES := by
  have h1 := saveAll_loop msgs [] (by simp)
  simp only [List.nil_append] at h1
  unfold saveAll
  rw [h1]
  exact ⟨rfl, lastN_length_le _ _⟩


/-! ### Speech synthesis client (`services/deepgram.py`, `DeepgramTTSClient`)

State of one `DeepgramTTSClient`: whether its transport is open
(`self._ws and self._is_connected` folded into one flag — `_is_connected` is
false both before `connect` and after either `close()` variant), the
`_pending_flushes` counter, and the `_flush_event`.  Operations return the
list of externally visible effects: frames written to the socket, callback
invocations, log warnings.  The functions are total: paths that the Python
code exits normally produce a value, so "does not raise" is captured by the
absence of any error alternative in the result type.
-/

inductive TTSFrame
  | speak (text : String)
  | flushFrame
  | closeFrame
deriving DecidableEq

inductive TTSEffect
  | sendFrame (f : TTSFrame)
  | audioCb (chunk : Nat)
  | flushCb
  | errorCb (msg : String)
  | warnLog
deriving DecidableEq

structure TTSClientState where
  connected : Bool
  pendingFlushes : Nat
  flushEventSet : Bool
deriving DecidableEq

/-- Messages arriving on the TTS socket, as demultiplexed by
`DeepgramTTSClient._receive_loop`: binary audio chunks, the JSON
`{"type": "Flushed"}` acknowledgment, `{"type": "Error"}`, or anything else
(ignored). -/
inductive TTSMessage
  | audioChunk (n : Nat)
  | flushed
  | errorMsg (m : String)
  | other
deriving DecidableEq

/-- `DeepgramTTSClient.connect` (success path): transport open, counters
reset (`_pending_flushes = 0`, `_flush_event` cleared). -/
def ttsConnect : TTSClientState := ⟨true, 0, false⟩

/-- `DeepgramTTSClient.send_text`: only acts when `self._ws and
self._is_connected`; otherwise returns silently with no effect. -/
def send_text (s : TTSClientState) (text : String) : TTSClientState × List TTSEffect :=
  if s.connected then (s, [.sendFrame (.speak text)]) else (s, [])

/-- `DeepgramTTSClient.flush`: only acts when connected; increments
`_pending_flushes`, clears `_flush_event`, sends a Flush frame. -/
def ttsFlush (s : TTSClientState) : TTSClientState × List TTSEffect :=
  if s.connected then
    ({ s with pendingFlushes := s.pendingFlushes + 1, flushEventSet := false },
      [.sendFrame .flushFrame])
  else (s, [])

/-- One iteration of `DeepgramTTSClient._receive_loop` on an incoming
message.  On `Flushed`: `_pending_flushes = max(0, _pending_flushes - 1)`
(natural subtraction), and `_flush_event.set()` only when the counter
reaches zero; `on_flush` is invoked for every acknowledgment. -/
def ttsRecv (s : TTSClientState) (m : TTSMessage) : TTSClientState × List TTSEffect :=
  match m with
  | .audioChunk n => (s, [.audioCb n])
  | .flushed =>
      let p := s.pendingFlushes - 1
      ({ s with pendingFlushes := p,
                flushEventSet := if p = 0 then true else s.flushEventSet },
        [.flushCb])
  | .errorMsg msg => (s, [.errorCb msg])
  | .other => (s, [])

inductive FlushWaitResult
  | completed
  | timedOut
deriving DecidableEq

/-- `asyncio.wait_for(self._flush_event.wait(), timeout)`, driven by the
receive loop: `arrivals` is the finite sequence of messages the socket
delivers before the timeout deadline.  The wait unblocks as soon as the
event is set; if the arrivals are exhausted first, the timeout fires. -/
def waitFlushEvent (s : TTSClientState) (arrivals : List TTSMessage) :
    TTSClientState × FlushWaitResult :=
  if s.flushEventSet then (s, .completed)
  else
    match arrivals with
    | [] => (s, .timedOut)
    | m :: rest => waitFlushEvent (ttsRecv s m).1 rest

/-- `DeepgramTTSClient.flush_and_wait`: send a flush, then wait for the
flush event under a timeout.  `asyncio.TimeoutError` is caught: the only
effect on that path is a log warning, and the call returns normally. -/
def flush_and_wait (s : TTSClientState) (arrivals : List TTSMessage) :
    TTSClientState × List TTSEffect × FlushWaitResult :=
  let flushed := ttsFlush s
  let waited := waitFlushEvent flushed.1 arrivals
  match waited.2 with
  | .completed => (waited.1, flushed.2, .completed)
  | .timedOut => (waited.1, flushed.2 ++ [.warnLog], .timedOut)

/-- Count of `Flushed` acknowledgments among a list of arrivals. -/
def countFlushed (arrivals : List TTSMessage) : Nat :=
  arrivals.countP (fun m => m = TTSMessage.flushed)

theorem waitFlushEvent_completed (arrivals : List TTSMessage) :
    ∀ s : TTSClientState, s.flushEventSet = false → 0 < s.pendingFlushes →
      ((waitFlushEvent s arrivals).2 = .completed ↔
        s.pendingFlushes ≤ countFlushed arrivals) := by
  induction arrivals with
  | nil =>
      intro s hev hp
      simp [waitFlushEvent, hev, countFlushed]
      omega
  | cons m rest ih =>
      intro s hev hp
      rw [waitFlushEvent]
      simp only [hev, Bool.false_eq_true, if_false]
      match m with
      | .audioChunk n =>
          have hr : (ttsRecv s (TTSMessage.audioChunk n)).1 = s := rfl
          rw [hr, ih s hev hp]
          simp [countFlushed]
      | .errorMsg msg =>
          have hr : (ttsRecv s (TTSMessage.errorMsg msg)).1 = s := rfl
          rw [hr, ih s hev hp]
          simp [countFlushed]
      | .other =>
          have hr : (ttsRecv s TTSMessage.other).1 = s := rfl
          rw [hr, ih s hev hp]
          simp [countFlushed]
      | .flushed =>
          by_cases h1 : s.pendingFlushes = 1
          · -- the last outstanding acknowledgment: event set, wait completes
            have hset : (ttsRecv s .flushed).1.flushEventSet = true := by
              simp [ttsRecv, h1]
            have hdone : ∀ rest1, (waitFlushEvent (ttsRecv s .flushed).1 rest1).2
                = .completed := by
              intro rest1
              cases rest1 <;> rw [waitFlushEvent] <;> simp [hset]
            rw [hdone]
            simp [countFlushed, h1]
          · -- still outstanding acknowledgments afterwards
            have hev1 : (ttsRecv s .flushed).1.flushEventSet = false := by
              simp only [ttsRecv]
              have hne : ¬ (s.pendingFlushes - 1 = 0) := by omega
              simp [hne, hev]
            have hp1 : 0 < (ttsRecv s .flushed).1.pendingFlushes := by
              simp only [ttsRecv]
              omega
            rw [ih _ hev1 hp1]
            simp only [ttsRecv, countFlushed, List.countP_cons]
            simp

/-- C7: `flush_and_wait` on a connected client sends one flush frame and
unblocks normally (result `completed`) exactly when the arrivals before the
deadline acknowledge every outstanding flush — the one it just queued plus
all previously pending ones, not just the first; otherwise it times out,
logs a warning, and still returns normally (the result type has no failure
alternative, matching the caught `asyncio.TimeoutError`). -/
theorem flush_and_wait_spec (s : TTSClientState) (arrivals : List TTSMessage)
    (hconn : s.connected = true) :
    (flush_and_wait s arrivals).2.1.head? = some (.sendFrame .flushFrame) ∧
    ((flush_and_wait s arrivals).2.2 = .completed ↔
      s.pendingFlushes + 1 ≤ countFlushed arrivals) ∧
    ((flush_and_wait s arrivals).2.2 = .timedOut →
      TTSEffect.warnLog ∈ (flush_and_wait s arrivals).2.1) := by
  have hs1 : (ttsFlush s).1
      = TTSClientState.mk true (s.pendingFlushes + 1) false := by
    obtain ⟨c, p, f⟩ := s
    simp only at hconn
    subst hconn
    rfl
  have he : (ttsFlush s).2 = [TTSEffect.sendFrame TTSFrame.flushFrame] := by
    obtain ⟨c, p, f⟩ := s
    simp only at hconn
    subst hconn
    rfl
  have hwait := waitFlushEvent_completed arrivals
    (TTSClientState.mk true (s.pendingFlushes + 1) false) rfl (by simp)
  rw [show (TTSClientState.mk true (s.pendingFlushes + 1) false).pendingFlushes
      = s.pendingFlushes + 1 from rfl, ← hs1] at hwait
  cases hres : (waitFlushEvent (ttsFlush s).1 arrivals).2 with
  | completed =>
      have hfw : flush_and_wait s arrivals
          = ((waitFlushEvent (ttsFlush s).1 arrivals).1, (ttsFlush s).2,
              FlushWaitResult.completed) := by
        simp only [flush_and_wait]
        rw [hres]
      rw [hfw, he]
      refine ⟨rfl, ?_, ?_⟩
      · constructor
        · intro _
          exact hwait.mp hres
        · intro _
          rfl
      · intro hcontra
        simp at hcontra
  | timedOut =>
      have hfw : flush_and_wait s arrivals
          = ((waitFlushEvent (ttsFlush s).1 arrivals).1,
              (ttsFlush s).2 ++ [TTSEffect.warnLog], FlushWaitResult.timedOut) := by
        simp only [flush_and_wait]
        rw [hres]
      rw [hfw, he]
      refine ⟨rfl, ?_, ?_⟩
      · constructor
        · intro hcontra
          simp at hcontra
        · intro hP
          have := hwait.mpr hP
          rw [hres] at this
          simp at this
      · intro _
        simp

/-- Witness for C7, realizing the spec scenario: one flush already queued
(`pendingFlushes = 1`), `flush_and_wait` queues a second, but only one
acknowledgment arrives before the timeout — the call times out, warns, and
returns normally. -/
theorem flush_and_wait_witness :
    (⟨true, 1, false⟩ : TTSClientState).connected = true ∧
    (flush_and_wait ⟨true, 1, false⟩ [.flushed]).2.2 = .timedOut ∧
    TTSEffect.warnLog ∈ (flush_and_wait ⟨true, 1, false⟩ [.flushed]).2.1 ∧
    (flush_and_wait ⟨true, 1, false⟩ [.flushed]).2.1.head?
      = some (.sendFrame .flushFrame) := by
  have h := flush_and_wait_spec ⟨true, 1, false⟩ [.flushed] rfl
  refine ⟨rfl, ?_, ?_, h.1⟩
  · cases hres : (flush_and_wait ⟨true, 1, false⟩ [.flushed]).2.2
    · exfalso
      have := (h.2.1).mp hres
      simp [countFlushed] at this
    · rfl
  · apply h.2.2
    cases hres : (flush_and_wait ⟨true, 1, false⟩ [.flushed]).2.2
    · exfalso
      have := (h.2.1).mp hres
      simp [countFlushed] at this
    · rfl

/-- C10: when the synthesis client is not connected (never connected, or
after a graceful or force close — all of which leave `_is_connected`
false), `send_text` and `flush` are silent no-ops: no frame is sent, no
callback (in particular no error callback) fires, the client state is
unchanged, and the functions return normally. -/
theorem sendText_flush_noop_disconnected (s : TTSClientState) (text : String)
    (h : s.connected = false) :
    send_text s text = (s, []) ∧ ttsFlush s = (s, []) := by
  constructor <;> simp [send_text, ttsFlush, h]

/-- Witness for C10, at the concrete never-connected client state. -/
theorem sendText_flush_noop_witness :
    (⟨false, 0, false⟩ : TTSClientState).connected = false ∧
    send_text ⟨false, 0, false⟩ "hello" = (⟨false, 0, false⟩, []) ∧
    ttsFlush ⟨false, 0, false⟩ = (⟨false, 0, false⟩, []) := by
  have h := sendText_flush_noop_disconnected ⟨false, 0, false⟩ "hello" rfl
  exact ⟨rfl, h.1, h.2⟩


/-! ### Sentence-boundary scan (`flows/voice.py`, `_generate_response`)

The streaming loop keeps a `sentence_buffer` and repeatedly looks for a
sentence terminator:

    end_idx = -1
    for punct in ['. ', '! ', '? ', '.\n', '!\n', '?\n']:
        idx = sentence_buffer.find(punct)
        if idx != -1 and (end_idx == -1 or idx < end_idx):
            end_idx = idx + len(punct)

then emits `sentence_buffer[:end_idx]` and keeps `sentence_buffer[end_idx:]`,
looping until no terminator remains.  Strings are embedded as `List Char`.
-/

/-- The terminator strings, in the order the Python loop iterates them; each
is two characters (a punctuation mark followed by a space or newline). -/
def sentencePuncts : List (Char × Char) :=
  [('.', ' '), ('!', ' '), ('?', ' '), ('.', '\n'), ('!', '\n'), ('?', '\n')]

/-- `str.find` for a two-character pattern: index of the first occurrence,
`none` when absent. -/
def findPair (buf : List Char) (p : Char × Char) : Option Nat :=
  match buf with
  | [] => none
  | [_] => none
  | a :: b :: rest =>
      if a = p.1 ∧ b = p.2 then some 0
      else (findPair (b :: rest) p).map (· + 1)

/-- The pattern `p` occurs at index `i` of `buf`. -/
def punctAtB (buf : List Char) (i : Nat) (p : Char × Char) : Bool :=
  decide (buf[i]? = some p.1) && decide (buf[i + 1]? = some p.2)

/-- Some pattern from `S` occurs at index `i` of `buf`. -/
def anyPunctAtB (buf : List Char) (S : List (Char × Char)) (i : Nat) : Bool :=
  S.any (fun p => punctAtB buf i p)

/-- A sentence terminator occurs at index `i` of `buf`. -/
def termAtB (buf : List Char) (i : Nat) : Bool :=
  anyPunctAtB buf sentencePuncts i

/-- One iteration of the Python `for punct in [...]` loop body:
`if idx != -1 and (end_idx == -1 or idx < end_idx): end_idx = idx + 2`. -/
def boundaryStep (buf : List Char) (acc : Option Nat) (p : Char × Char) : Option Nat :=
  match findPair buf p with
  | none => acc
  | some idx =>
      match acc with
      | none => some (idx + 2)
      | some e => if idx < e then some (idx + 2) else some e

/-- The whole terminator search: the Python loop over the six terminators,
returning the final `end_idx` (`none` for `-1`). -/
def findBoundaryEnd (buf : List Char) : Option Nat :=
  sentencePuncts.foldl (boundaryStep buf) none

theorem punctAtB_cons_succ (a : Char) (l : List Char) (j : Nat) (p : Char × Char) :
    punctAtB (a :: l) (j + 1) p = punctAtB l j p := by
  simp [punctAtB]

theorem punctAtB_le {buf : List Char} {i : Nat} {p : Char × Char}
    (h : punctAtB buf i p = true) : i + 2 ≤ buf.length := by
  simp only [punctAtB, Bool.and_eq_true, decide_eq_true_eq] at h
  have := h.2
  have hlt : i + 1 < buf.length := by
    by_contra hge
    rw [List.getElem?_eq_none (by omega)] at this
    cases this
  omega

theorem anyPunctAtB_le {buf : List Char} {S : List (Char × Char)} {i : Nat}
    (h : anyPunctAtB buf S i = true) : i + 2 ≤ buf.length := by
  simp only [anyPunctAtB, List.any_eq_true] at h
  obtain ⟨p, _, hp⟩ := h
  exact punctAtB_le hp

theorem findPair_le {p : Char × Char} :
    ∀ {buf : List Char} {i : Nat}, findPair buf p = some i → i + 2 ≤ buf.length := by
  intro buf
  induction buf with
  | nil => intro i h; simp [findPair] at h
  | cons a tail ih =>
      intro i h
      match tail with
      | [] => simp [findPair] at h
      | b :: rest =>
          rw [findPair] at h
          split at h
          · cases h
            simp
          · simp only [Option.map_eq_some'] at h
            obtain ⟨j, hj, rfl⟩ := h
            have := ih hj
            simpa using Nat.add_le_add_right this 1

theorem findPair_mem {p : Char × Char} :
    ∀ {buf : List Char} {i : Nat}, findPair buf p = some i → punctAtB buf i p = true := by
  intro buf
  induction buf with
  | nil => intro i h; simp [findPair] at h
  | cons a tail ih =>
      intro i h
      match tail with
      | [] => simp [findPair] at h
      | b :: rest =>
          rw [findPair] at h
          split at h
          · next hab =>
              cases h
              simp [punctAtB, hab.1, hab.2]
          · simp only [Option.map_eq_some'] at h
            obtain ⟨j, hj, rfl⟩ := h
            rw [punctAtB_cons_succ]
            exact ih hj

theorem findPair_min {p : Char × Char} :
    ∀ {buf : List Char} {i : Nat}, findPair buf p = some i →
      ∀ j, j < i → punctAtB buf j p = false := by
  intro buf
  induction buf with
  | nil => intro i h; simp [findPair] at h
  | cons a tail ih =>
      intro i h j hj
      match tail with
      | [] => simp [findPair] at h
      | b :: rest =>
          rw [findPair] at h
          split at h
          · cases h; omega
          · next hab =>
              simp only [Option.map_eq_some'] at h
              obtain ⟨k, hk, rfl⟩ := h
              match j with
              | 0 =>
                  simp only [punctAtB]
                  simp only [List.getElem?_cons_zero, List.getElem?_cons_succ]
                  by_contra hc
                  simp only [Bool.not_eq_false, Bool.and_eq_true, decide_eq_true_eq,
                    Option.some.injEq] at hc
                  exact hab hc
              | j' + 1 =>
                  rw [punctAtB_cons_succ]
                  exact ih hk j' (by omega)

theorem findPair_none {p : Char × Char} :
    ∀ {buf : List Char}, findPair buf p = none →
      ∀ i, punctAtB buf i p = false := by
  intro buf
  induction buf with
  | nil =>
      intro _ i
      simp [punctAtB]
  | cons a tail ih =>
      intro h i
      match tail with
      | [] =>
          match i with
          | 0 => simp [punctAtB]
          | i' + 1 => rw [punctAtB_cons_succ]; simp [punctAtB]
      | b :: rest =>
          rw [findPair] at h
          split at h
          · cases h
          · next hab =>
              simp only [Option.map_eq_none'] at h
              match i with
              | 0 =>
                  simp only [punctAtB]
                  simp only [List.getElem?_cons_zero, List.getElem?_cons_succ]
                  by_contra hc
                  simp only [Bool.not_eq_false, Bool.and_eq_true, decide_eq_true_eq,
                    Option.some.injEq] at hc
                  exact hab hc
              | i' + 1 =>
                  rw [punctAtB_cons_succ]
                  exact ih h i'


theorem punct_fst {p : Char × Char} (hp : p ∈ sentencePuncts) :
    p.1 = '.' ∨ p.1 = '!' ∨ p.1 = '?' := by
  simp only [sentencePuncts, List.mem_cons, List.not_mem_nil, or_false] at hp
  rcases hp with h | h | h | h | h | h <;> subst h <;> simp

theorem punct_snd {p : Char × Char} (hp : p ∈ sentencePuncts) :
    p.2 = ' ' ∨ p.2 = '\n' := by
  simp only [sentencePuncts, List.mem_cons, List.not_mem_nil, or_false] at hp
  rcases hp with h | h | h | h | h | h <;> subst h <;> simp

/-- Two sentence terminators can never occur at adjacent indices: the second
character of a terminator is a space or newline, while the first character
of a terminator is a punctuation mark. -/
theorem no_adjacent_puncts {buf : List Char} {i : Nat} {p q : Char × Char}
    (hp : p ∈ sentencePuncts) (hq : q ∈ sentencePuncts)
    (h1 : punctAtB buf i p = true) (h2 : punctAtB buf (i + 1) q = true) : False := by
  simp only [punctAtB, Bool.and_eq_true, decide_eq_true_eq] at h1 h2
  have e1 : buf[i + 1]? = some p.2 := h1.2
  have e2 : buf[i + 1]? = some q.1 := h2.1
  rw [e1] at e2
  have heq : p.2 = q.1 := by injection e2
  rcases punct_snd hp with h | h <;> rcases punct_fst hq with g | g | g <;>
    rw [h, g] at heq <;> exact absurd heq (by decide)

/-- What the running `end_idx` accumulator means after part of the terminator
loop has run: `none` iff no terminator from the processed set occurs; `some e`
iff `e = i + 2` for the least index `i` at which some processed terminator
occurs. -/
def Represents (buf : List Char) (S : List (Char × Char)) : Option Nat → Prop
  | none => ∀ i, anyPunctAtB buf S i = false
  | some e => ∃ i, e = i + 2 ∧ anyPunctAtB buf S i = true ∧
      ∀ j, j < i → anyPunctAtB buf S j = false

theorem anyPunctAtB_append (buf : List Char) (S : List (Char × Char))
    (p : Char × Char) (i : Nat) :
    anyPunctAtB buf (S ++ [p]) i = (anyPunctAtB buf S i || punctAtB buf i p) := by
  simp [anyPunctAtB]

theorem represents_step (buf : List Char) (S : List (Char × Char)) (p : Char × Char)
    (acc : Option Nat) (hS : ∀ q ∈ S, q ∈ sentencePuncts) (hp : p ∈ sentencePuncts)
    (h : Represents buf S acc) :
    Represents buf (S ++ [p]) (boundaryStep buf acc p) := by
  rw [boundaryStep]
  cases hfp : findPair buf p with
  | none =>
      have hnone := findPair_none hfp
      cases acc with
      | none =>
          intro i
          rw [anyPunctAtB_append, h i, hnone i]
          rfl
      | some e =>
          obtain ⟨m, rfl, hm, hmin⟩ := h
          exact ⟨m, rfl, by rw [anyPunctAtB_append, hm]; rfl,
            fun j hj => by rw [anyPunctAtB_append, hmin j hj, hnone j]; rfl⟩
  | some idx =>
      have hidx := findPair_mem hfp
      have hidxmin := findPair_min hfp
      cases acc with
      | none =>
          exact ⟨idx, rfl, by rw [anyPunctAtB_append, hidx]; simp,
            fun j hj => by rw [anyPunctAtB_append, h j, hidxmin j hj]; rfl⟩
      | some e =>
          obtain ⟨m, rfl, hm, hmin⟩ := h
          by_cases hlt : idx < m + 2
          · -- the new terminator occurrence is at or before the current best;
            -- adjacency is impossible, so in fact idx ≤ m
            have hle : idx ≤ m := by
              by_contra hgt
              have : idx = m + 1 := by omega
              subst this
              obtain ⟨q, hqS, hq⟩ := List.any_eq_true.mp hm
              exact no_adjacent_puncts (hS q hqS) hp hq hidx
            simp only [hlt, if_true]
            refine ⟨idx, rfl, by rw [anyPunctAtB_append, hidx]; simp, fun j hj => ?_⟩
            rw [anyPunctAtB_append, hmin j (by omega), hidxmin j hj]
            rfl
          · simp only [hlt, if_false]
            refine ⟨m, rfl, by rw [anyPunctAtB_append, hm]; rfl, fun j hj => ?_⟩
            rw [anyPunctAtB_append, hmin j hj, hidxmin j (by omega)]
            rfl

theorem represents_fold (buf : List Char) :
    ∀ (ps S : List (Char × Char)), (∀ q ∈ S, q ∈ sentencePuncts) →
      (∀ q ∈ ps, q ∈ sentencePuncts) → ∀ acc, Represents buf S acc →
      Represents buf (S ++ ps) (ps.foldl (boundaryStep buf) acc) := by
  intro ps
  induction ps with
  | nil =>
      intro S _ _ acc h
      simpa using h
  | cons p ps' ih =>
      intro S hS hps acc h
      have h1 : Represents buf (S ++ [p]) (boundaryStep buf acc p) :=
        represents_step buf S p acc hS (hps p (by simp)) h
      have h2 := ih (S ++ [p])
        (by intro q hq
            rcases List.mem_append.mp hq with hq | hq
            · exact hS q hq
            · simp only [List.mem_singleton] at hq
              subst hq
              exact hps q (by simp))
        (fun q hq => hps q (by simp [hq])) _ h1
      rw [List.append_assoc] at h2
      simpa using h2

theorem findBoundaryEnd_represents (buf : List Char) :
    Represents buf sentencePuncts (findBoundaryEnd buf) := by
  have h := represents_fold buf sentencePuncts [] (by simp) (fun q hq => hq) none
    (by intro i; simp [anyPunctAtB])
  simpa [findBoundaryEnd] using h


/-- Linear search for the least index at position `≥ i` (with `fuel`
remaining candidates) where a sentence terminator occurs. -/
def leastTermAux (buf : List Char) : Nat → Nat → Option Nat
  | _, 0 => none
  | i, fuel + 1 => if termAtB buf i then some i else leastTermAux buf (i + 1) fuel

/-- The least index of `buf` at which a sentence terminator occurs (every
occurrence index is `< buf.length`, so `buf.length` fuel suffices). -/
def minTermPos (buf : List Char) : Option Nat := leastTermAux buf 0 buf.length

theorem leastTermAux_some_term {buf : List Char} :
    ∀ {fuel i r : Nat}, leastTermAux buf i fuel = some r →
      termAtB buf r = true ∧ i ≤ r ∧ ∀ j, i ≤ j → j < r → termAtB buf j = false := by
  intro fuel
  induction fuel with
  | zero => intro i r h; simp [leastTermAux] at h
  | succ fuel ih =>
      intro i r h
      rw [leastTermAux] at h
      split at h
      · next ht => cases h; exact ⟨ht, le_refl _, fun j h1 h2 => by omega⟩
      · next ht =>
          obtain ⟨h1, h2, h3⟩ := ih h
          refine ⟨h1, by omega, fun j hj1 hj2 => ?_⟩
          rcases Nat.eq_or_lt_of_le hj1 with rfl | hlt
          · simpa using ht
          · exact h3 j hlt hj2

theorem leastTermAux_finds {buf : List Char} :
    ∀ {fuel i r : Nat}, termAtB buf r = true → i ≤ r → r < i + fuel →
      (∀ j, i ≤ j → j < r → termAtB buf j = false) →
      leastTermAux buf i fuel = some r := by
  intro fuel
  induction fuel with
  | zero => intro i r _ _ h; omega
  | succ fuel ih =>
      intro i r ht hir hfuel hmin
      rw [leastTermAux]
      rcases Nat.eq_or_lt_of_le hir with rfl | hlt
      · simp [ht]
      · rw [hmin i (le_refl _) hlt]
        simp only [Bool.false_eq_true, if_false]
        exact ih ht hlt (by omega) (fun j h1 h2 => hmin j (by omega) h2)

theorem leastTermAux_none {buf : List Char} :
    ∀ {fuel i : Nat}, leastTermAux buf i fuel = none →
      ∀ j, i ≤ j → j < i + fuel → termAtB buf j = false := by
  intro fuel
  induction fuel with
  | zero => intro i _ j h1 h2; omega
  | succ fuel ih =>
      intro i h j h1 h2
      rw [leastTermAux] at h
      split at h
      · cases h
      · next ht =>
          rcases Nat.eq_or_lt_of_le h1 with rfl | hlt
          · simpa using ht
          · exact ih h j hlt (by omega)

theorem minTermPos_none {buf : List Char} (h : ∀ i, termAtB buf i = false) :
    minTermPos buf = none := by
  rw [minTermPos]
  cases hm : leastTermAux buf 0 buf.length with
  | none => rfl
  | some r =>
      have := (leastTermAux_some_term hm).1
      rw [h r] at this
      cases this

theorem minTermPos_some {buf : List Char} {i : Nat} (ht : termAtB buf i = true)
    (hmin : ∀ j, j < i → termAtB buf j = false) : minTermPos buf = some i := by
  have hlt : i < buf.length := by
    have := anyPunctAtB_le ht
    omega
  exact leastTermAux_finds ht (Nat.zero_le _) (by omega)
    (fun j _ h2 => hmin j h2)

/-- The terminator-loop result is exactly "least terminator position plus the
terminator length": smallest index wins, independent of which terminator
string it is. -/
theorem findBoundaryEnd_eq_minTermPos (buf : List Char) :
    findBoundaryEnd buf = (minTermPos buf).map (· + 2) := by
  have hrep := findBoundaryEnd_represents buf
  cases hfb : findBoundaryEnd buf with
  | none =>
      rw [hfb] at hrep
      rw [minTermPos_none hrep]
      rfl
  | some e =>
      rw [hfb] at hrep
      obtain ⟨i, rfl, hi, hmin⟩ := hrep
      rw [minTermPos_some hi hmin]
      rfl

theorem minTermPos_le {buf : List Char} {i : Nat} (h : minTermPos buf = some i) :
    i + 2 ≤ buf.length :=
  anyPunctAtB_le (leastTermAux_some_term h).1

theorem findBoundaryEnd_bounds {buf : List Char} {e : Nat}
    (h : findBoundaryEnd buf = some e) : 2 ≤ e ∧ e ≤ buf.length := by
  rw [findBoundaryEnd_eq_minTermPos] at h
  rw [Option.map_eq_some'] at h
  obtain ⟨i, hi, rfl⟩ := h
  have := minTermPos_le hi
  omega

/-- The sentence-emission loop: repeatedly find the terminator end index,
emit `sentence_buffer[:end_idx]`, keep `sentence_buffer[end_idx:]`, until no
terminator remains.  Returns (emitted sentences in order, final buffer). -/
def scanSentences (buf : List Char) : List (List Char) × List Char :=
  match h : findBoundaryEnd buf with
  | none => ([], buf)
  | some e =>
      let rest := scanSentences (buf.drop e)
      (buf.take e :: rest.1, rest.2)
termination_by buf.length
decreasing_by
  have := findBoundaryEnd_bounds h
  simp only [List.length_drop]
  omega

/-- The specification-side scan: split at the smallest terminator position
(plus terminator length), repeatedly. -/
def specScanSentences (buf : List Char) : List (List Char) × List Char :=
  match h : minTermPos buf with
  | none => ([], buf)
  | some i =>
      let rest := specScanSentences (buf.drop (i + 2))
      (buf.take (i + 2) :: rest.1, rest.2)
termination_by buf.length
decreasing_by
  have := minTermPos_le h
  simp only [List.length_drop]
  omega

theorem scanSentences_of_none {buf : List Char} (h : findBoundaryEnd buf = none) :
    scanSentences buf = ([], buf) := by
  rw [scanSentences]
  split
  · rfl
  · next e heq => rw [h] at heq; cases heq

theorem scanSentences_of_some {buf : List Char} {e : Nat}
    (h : findBoundaryEnd buf = some e) :
    scanSentences buf
      = (buf.take e :: (scanSentences (buf.drop e)).1, (scanSentences (buf.drop e)).2) := by
  rw [scanSentences]
  split
  · next heq => rw [h] at heq; cases heq
  · next e' heq =>
      rw [h] at heq
      cases heq
      rfl

theorem specScanSentences_of_none {buf : List Char} (h : minTermPos buf = none) :
    specScanSentences buf = ([], buf) := by
  rw [specScanSentences]
  split
  · rfl
  · next i heq => rw [h] at heq; cases heq

theorem specScanSentences_of_some {buf : List Char} {i : Nat}
    (h : minTermPos buf = some i) :
    specScanSentences buf
      = (buf.take (i + 2) :: (specScanSentences (buf.drop (i + 2))).1,
          (specScanSentences (buf.drop (i + 2))).2) := by
  rw [specScanSentences]
  split
  · next heq => rw [h] at heq; cases heq
  · next i' heq =>
      rw [h] at heq
      cases heq
      rfl

/-- C5: the emission loop always splits at the terminator occurrence whose
position in the buffer is smallest (regardless of which of the six
terminator strings it is), emits the prefix up to and including that
terminator, keeps the remainder, and repeats until no terminator remains. -/
theorem scanSentences_eq_spec (buf : List Char) :
    scanSentences buf = specScanSentences buf := by
  have H : ∀ n (b : List Char), b.length ≤ n → scanSentences b = specScanSentences b := by
    intro n
    induction n with
    | zero =>
        intro b hb
        have hb0 : b = [] := by
          cases b
          · rfl
          · simp at hb
        subst hb0
        rw [scanSentences_of_none (by rfl), specScanSentences_of_none (by rfl)]
    | succ n ih =>
        intro b hb
        cases hm : minTermPos b with
        | none =>
            rw [specScanSentences_of_none hm, scanSentences_of_none]
            rw [findBoundaryEnd_eq_minTermPos, hm]
            rfl
        | some i =>
            have hfb : findBoundaryEnd b = some (i + 2) := by
              rw [findBoundaryEnd_eq_minTermPos, hm]
              rfl
            rw [scanSentences_of_some hfb, specScanSentences_of_some hm]
            have hle := minTermPos_le hm
            have hrec := ih (b.drop (i + 2)) (by simp only [List.length_drop]; omega)
            rw [hrec]
  exact H buf.length buf (le_refl _)


theorem punctAtB_append_left {x : List Char} (y : List Char) {i : Nat}
    {p : Char × Char} (h : i + 2 ≤ x.length) :
    punctAtB (x ++ y) i p = punctAtB x i p := by
  simp only [punctAtB, List.getElem?_append]
  rw [if_pos (show i < x.length by omega), if_pos (show i + 1 < x.length by omega)]

theorem termAtB_append_left {x : List Char} (y : List Char) {i : Nat}
    (h : i + 2 ≤ x.length) : termAtB (x ++ y) i = termAtB x i := by
  simp only [termAtB, anyPunctAtB, punctAtB_append_left y h]

theorem minTermPos_append_of_some {x : List Char} (y : List Char) {i : Nat}
    (h : minTermPos x = some i) : minTermPos (x ++ y) = some i := by
  obtain ⟨ht, -, hmin⟩ := leastTermAux_some_term h
  have hle : i + 2 ≤ x.length := anyPunctAtB_le ht
  apply minTermPos_some
  · rw [termAtB_append_left y hle]
    exact ht
  · intro j hj
    rw [termAtB_append_left y (by omega)]
    exact hmin j (Nat.zero_le _) hj

/-- Scanning `x ++ y` first emits everything the scan of `x` emits, then
continues from the remainder of `x` followed by `y`. -/
theorem scanSentences_append (x y : List Char) :
    scanSentences (x ++ y)
      = ((scanSentences x).1 ++ (scanSentences ((scanSentences x).2 ++ y)).1,
          (scanSentences ((scanSentences x).2 ++ y)).2) := by
  have H : ∀ n (x : List Char), x.length ≤ n →
      scanSentences (x ++ y)
        = ((scanSentences x).1 ++ (scanSentences ((scanSentences x).2 ++ y)).1,
            (scanSentences ((scanSentences x).2 ++ y)).2) := by
    intro n
    induction n with
    | zero =>
        intro x hx
        have hx0 : x = [] := by
          cases x
          · rfl
          · simp at hx
        subst hx0
        rw [show scanSentences ([] : List Char) = ([], [])
          from scanSentences_of_none (by rfl)]
        simp
    | succ n ih =>
        intro x hx
        cases hm : minTermPos x with
        | none =>
            have hx0 : scanSentences x = ([], x) := scanSentences_of_none
              (by rw [findBoundaryEnd_eq_minTermPos, hm]; rfl)
            rw [hx0]
            simp
        | some i =>
            have hle := minTermPos_le hm
            have hfbx : findBoundaryEnd x = some (i + 2) := by
              rw [findBoundaryEnd_eq_minTermPos, hm]; rfl
            have hfbxy : findBoundaryEnd (x ++ y) = some (i + 2) := by
              rw [findBoundaryEnd_eq_minTermPos, minTermPos_append_of_some y hm]; rfl
            have htake : (x ++ y).take (i + 2) = x.take (i + 2) := by
              rw [List.take_append_eq_append_take, show i + 2 - x.length = 0 by omega]
              simp
            have hdrop : (x ++ y).drop (i + 2) = x.drop (i + 2) ++ y := by
              rw [List.drop_append_eq_append_drop, show i + 2 - x.length = 0 by omega]
              simp
            rw [scanSentences_of_some hfbxy, scanSentences_of_some hfbx, htake, hdrop,
              ih (x.drop (i + 2)) (by simp only [List.length_drop]; omega)]
            simp
  exact H x.length x (le_refl _)

/-- Feeding a sequence of text chunks through the streaming loop: for each
chunk, append it to the sentence buffer and run the emission loop; collect
all emitted sentences in order and the final buffer contents. -/
def feedAll (buf : List Char) : List (List Char) → List (List Char) × List Char
  | [] => ([], buf)
  | c :: cs =>
      let r := scanSentences (buf ++ c)
      let r' := feedAll r.2 cs
      (r.1 ++ r'.1, r'.2)

theorem scanSentences_rem_none (buf : List Char) :
    findBoundaryEnd (scanSentences buf).2 = none := by
  have H : ∀ n (b : List Char), b.length ≤ n →
      findBoundaryEnd (scanSentences b).2 = none := by
    intro n
    induction n with
    | zero =>
        intro b hb
        have hb0 : b = [] := by
          cases b
          · rfl
          · simp at hb
        subst hb0
        rw [scanSentences_of_none (by rfl)]
        rfl
    | succ n ih =>
        intro b hb
        cases hfb : findBoundaryEnd b with
        | none => rw [scanSentences_of_none hfb]; exact hfb
        | some e =>
            have hbd := findBoundaryEnd_bounds hfb
            rw [scanSentences_of_some hfb]
            exact ih (b.drop e) (by simp only [List.length_drop]; omega)
  exact H buf.length buf (le_refl _)

theorem feedAll_cons_eq_scan :
    ∀ (cs : List (List Char)) (buf c : List Char),
      feedAll buf (c :: cs) = scanSentences ((buf ++ c) ++ cs.flatten) := by
  intro cs
  induction cs with
  | nil =>
      intro buf c
      simp only [feedAll, List.flatten_nil, List.append_nil, Prod.mk.eta]
  | cons c2 cs ih =>
      intro buf c
      have hx := scanSentences_append (buf ++ c) (c2 ++ cs.flatten)
      have h1 : feedAll buf (c :: c2 :: cs)
          = ((scanSentences (buf ++ c)).1
                ++ (feedAll (scanSentences (buf ++ c)).2 (c2 :: cs)).1,
              (feedAll (scanSentences (buf ++ c)).2 (c2 :: cs)).2) := rfl
      rw [h1, ih, List.flatten_cons, hx, List.append_assoc]

/-- C6: feeding a response text through the sentence-buffer scan one
character at a time yields the same ordered sequence of emitted sentences
and the same final buffered remainder as feeding the whole text as one
block. -/
theorem sentence_scan_incremental (text : List Char) :
    feedAll [] (text.map (fun c => [c])) = feedAll [] [text] := by
  cases text with
  | nil =>
      rw [feedAll_cons_eq_scan, scanSentences_of_none (by rfl)]
      rfl
  | cons ch rest =>
      have hjoin : (rest.map (fun c => [c])).flatten = rest := by
        induction rest with
        | nil => rfl
        | cons r rs ihr => simp [ihr]
      simp only [List.map_cons]
      rw [feedAll_cons_eq_scan, feedAll_cons_eq_scan, hjoin]
      simp


/-! ### Context retrieval (`services/retrieval.py`, `retrieve_context`)

The part of `retrieve_context` that turns the over-fetched scored candidate
list into the final `k` passages.  Similarity scores (Python floats) are
modelled as rationals; `list.sort(key=lambda x: x[1], reverse=True)` is
Python stable sort, modelled by a stable descending insertion sort. -/

structure RetrievedDoc where
  id : Nat
  fileName : String
deriving DecidableEq

structure ScoredDoc where
  doc : RetrievedDoc
  score : ℚ
deriving DecidableEq

/-- Descending score order. -/
def scoreGE (a b : ScoredDoc) : Prop := b.score ≤ a.score

instance : DecidableRel scoreGE := fun a b => inferInstanceAs (Decidable (b.score ≤ a.score))

instance : IsTotal ScoredDoc scoreGE := ⟨fun a b => le_total b.score a.score⟩

instance : IsTrans ScoredDoc scoreGE := ⟨fun _ _ _ h1 h2 => le_trans h2 h1⟩

/-- `l.sort(key=lambda d: d.score, reverse=True)`: Python stable sort by
descending score (insertion sort places an element after all strictly
greater scores and before equal ones, so among equal keys the element that
came earlier in the input stays earlier, as Python guarantees). -/
def sortByScoreDesc (l : List ScoredDoc) : List ScoredDoc := List.insertionSort scoreGE l

/-- Keywords that make a query "work-related" in `retrieve_context`. -/
def workKeywords : List String :=
  ["work", "job", "company", "employer", "career", "experience", "worked", "employment"]

/-- Keywords that make a query "project-related" in `retrieve_context`. -/
def projectKeywords : List String := ["project", "publication"]

/-- `needle` is an initial segment of `haystack`. -/
def startsWithChars : List Char → List Char → Bool
  | [], _ => true
  | _ :: _, [] => false
  | a :: as, b :: bs => a = b && startsWithChars as bs

/-- Python substring test `needle in haystack` on character lists. -/
def containsChars (needle : List Char) : List Char → Bool
  | [] => startsWithChars needle []
  | b :: bs => startsWithChars needle (b :: bs) || containsChars needle bs

/-- `any(word in query_lower for word in keywords)` where
`query_lower = query.lower()`. -/
def matchesKeywords (keywords : List String) (query : List Char) : Bool :=
  keywords.any (fun w => containsChars w.toList (query.map Char.toLower))

def isWorkQuery (query : List Char) : Bool := matchesKeywords workKeywords query

/-- The pinned-source boost: split candidates into chunks from `pinnedFile`
and the rest, sort each group by descending score, take up to `k` pinned
chunks, fill the remaining `max(0, k - len(pinned))` slots with the others,
truncate to `k`, then sort the final selection by descending score. -/
def prioritizedSelect (pinnedFile : String) (docs : List ScoredDoc) (k : Nat) :
    List ScoredDoc :=
  let pinned := docs.filter (fun d => d.doc.fileName == pinnedFile)
  let other := docs.filter (fun d => !(d.doc.fileName == pinnedFile))
  let pinnedSorted := sortByScoreDesc pinned
  let otherSorted := sortByScoreDesc other
  let selected := pinnedSorted.take k ++ otherSorted.take (k - pinned.length)
  sortByScoreDesc (selected.take k)

/-- The candidate selection/ordering of `retrieve_context` on an already
retrieved scored candidate list. -/
def retrieveSelect (query : List Char) (docs : List ScoredDoc) (k : Nat) :
    List ScoredDoc :=
  if matchesKeywords workKeywords query then
    prioritizedSelect "01_career_summary.md" docs k
  else if matchesKeywords projectKeywords query then
    prioritizedSelect "30_projects_and_extras.md" docs k
  else
    (sortByScoreDesc docs).take k

/-- The claim-side requirement (from the spec, not from the code): the
entries whose flag is true form an initial segment of the list. -/
def flagsFirst : List Bool → Bool
  | [] => true
  | true :: rest => flagsFirst rest
  | false :: rest => rest.all (fun b => !b)

/-- The claim-side requirement that career-summary-sourced passages come
first in the returned ordering. -/
def careerFirst (sel : List ScoredDoc) : Bool :=
  flagsFirst (sel.map (fun d => d.doc.fileName == "01_career_summary.md"))


/-- Career-summary-sourced passage. -/
def careerPred (d : ScoredDoc) : Bool := d.doc.fileName == "01_career_summary.md"

/-- Counterexample input: a work-related query with one career-summary
candidate (score 5) among three candidates, the others scoring 9 and 8,
and `k = 2`. -/
def cexQuery : List Char := "What companies have you worked at?".toList

def cexDocs : List ScoredDoc :=
  [⟨⟨0, "01_career_summary.md"⟩, 5⟩, ⟨⟨1, "02_other.md"⟩, 9⟩, ⟨⟨2, "03_other.md"⟩, 8⟩]

/-- C9 counterexample: on a work-related query with a career-summary passage
present among at least `k = 2` candidates, the returned ordering does NOT
place the career-summary passage first — the final selection is re-sorted
by descending similarity score, so the higher-scoring non-career passage
comes first. -/
theorem retrieval_careerFirst_counterexample :
    isWorkQuery cexQuery = true ∧
    cexDocs.countP careerPred = 1 ∧
    cexDocs.length = 3 ∧
    (retrieveSelect cexQuery cexDocs 2).map (fun d => d.doc.fileName)
      = ["02_other.md", "01_career_summary.md"] ∧
    careerFirst (retrieveSelect cexQuery cexDocs 2) = false := by
  refine ⟨by decide, by decide, by decide, by decide, by decide⟩


theorem filter_partition_length (p : α → Bool) (l : List α) :
    (l.filter p).length + (l.filter (fun x => !(p x))).length = l.length := by
  induction l with
  | nil => rfl
  | cons a t ih =>
      by_cases h : p a <;> simp [List.filter_cons, h] <;> omega

/-- C9 amended: for a work-related query, career-summary passages are
preferentially SELECTED — every returned list contains exactly
`min k (number of career candidates)` career-summary passages, all entries
come from the candidate set, exactly `min k (number of candidates)` slots
are filled — but the final returned ORDERING is by descending similarity
score (the selection is re-sorted at the end), not career-first. -/
theorem retrieval_work_query_amended (query : List Char) (docs : List ScoredDoc)
    (k : Nat) (hw : isWorkQuery query = true) :
    List.Sorted scoreGE (retrieveSelect query docs k) ∧
    (retrieveSelect query docs k).countP careerPred
      = min k (docs.countP careerPred) ∧
    (retrieveSelect query docs k).length = min k docs.length ∧
    ∀ d ∈ retrieveSelect query docs k, d ∈ docs := by
  have hsel : retrieveSelect query docs k
      = prioritizedSelect "01_career_summary.md" docs k := by
    unfold retrieveSelect
    rw [if_pos (show matchesKeywords workKeywords query = true from hw)]
  have hps : prioritizedSelect "01_career_summary.md" docs k
      = sortByScoreDesc
          (((sortByScoreDesc (docs.filter careerPred)).take k
            ++ (sortByScoreDesc (docs.filter (fun d => !(careerPred d)))).take
                (k - (docs.filter careerPred).length)).take k) := rfl
  rw [hsel, hps]
  set pinned := docs.filter careerPred with hpinned
  set other := docs.filter (fun d => !(careerPred d)) with hother
  set PS := sortByScoreDesc pinned with hPS
  set OS := sortByScoreDesc other with hOS
  set A := PS.take k with hA
  set B := OS.take (k - pinned.length) with hB
  set sel0 := (A ++ B).take k with hsel0
  have hpermPS : List.Perm PS pinned := List.perm_insertionSort _ _
  have hpermOS : List.Perm OS other := List.perm_insertionSort _ _
  have hperm : List.Perm (sortByScoreDesc sel0) sel0 := List.perm_insertionSort _ _
  have hAtrue : ∀ x ∈ A, careerPred x = true := by
    intro x hx
    have hx1 : x ∈ PS := List.mem_of_mem_take hx
    have hx2 : x ∈ pinned := hpermPS.mem_iff.mp hx1
    exact (List.mem_filter.mp hx2).2
  have hBfalse : ∀ x ∈ B, careerPred x = false := by
    intro x hx
    have hx1 : x ∈ OS := List.mem_of_mem_take hx
    have hx2 : x ∈ other := hpermOS.mem_iff.mp hx1
    have := (List.mem_filter.mp hx2).2
    simpa using this
  have hAlen : A.length = min k pinned.length := by
    rw [hA, List.length_take, hpermPS.length_eq]
  have hBlen : B.length = min (k - pinned.length) other.length := by
    rw [hB, List.length_take, hpermOS.length_eq]
  have hAle : A.length ≤ k := by omega
  have hsel0eq : sel0 = A ++ B.take (k - A.length) := by
    rw [hsel0, List.take_append_eq_append_take, List.take_of_length_le hAle]
  have hcountdocs : docs.countP careerPred = pinned.length := by
    rw [hpinned, List.countP_eq_length_filter]
  refine ⟨List.sorted_insertionSort _ _, ?_, ?_, ?_⟩
  · -- count of career passages in the selection
    rw [hperm.countP_eq, hsel0eq, List.countP_append]
    have h1 : A.countP careerPred = A.length :=
      List.countP_eq_length.mpr (by intro a ha; simp [hAtrue a ha])
    have h2 : (B.take (k - A.length)).countP careerPred = 0 := by
      apply Nat.eq_zero_of_le_zero
      apply Nat.le_of_eq
      apply List.countP_eq_zero.mpr
      intro a ha
      simp [hBfalse a (List.mem_of_mem_take ha)]
    rw [h1, h2, hAlen, hcountdocs]
    omega
  · -- number of filled slots
    rw [hperm.length_eq, hsel0, List.length_take, List.length_append,
      ← filter_partition_length careerPred docs, ← hpinned, ← hother, hAlen, hBlen]
    omega
  · -- every selected passage is a candidate
    intro d hd
    have hd0 : d ∈ sel0 := hperm.mem_iff.mp hd
    have hd1 : d ∈ A ++ B := List.mem_of_mem_take hd0
    rcases List.mem_append.mp hd1 with h | h
    · exact List.mem_of_mem_filter (hpermPS.mem_iff.mp (List.mem_of_mem_take h))
    · exact List.mem_of_mem_filter (hpermOS.mem_iff.mp (List.mem_of_mem_take h))

/-- Witness for the amended C9 theorem at the counterexample input. -/
theorem retrieval_work_query_witness :
    isWorkQuery cexQuery = true ∧
    (retrieveSelect cexQuery cexDocs 2).countP careerPred
      = min 2 (cexDocs.countP careerPred) ∧
    (retrieveSelect cexQuery cexDocs 2).length = min 2 cexDocs.length := by
  have h := retrieval_work_query_amended cexQuery cexDocs 2 (by decide)
  exact ⟨by decide, h.2.1, h.2.2.1⟩


/-! ### Voice orchestrator (`flows/voice.py`, `VoiceFlow`)

Operational model of the `VoiceFlow` state machine, as an explicit step
function over externally visible events.  Modelling assumptions, reflecting
Python asyncio cooperative scheduling:

- Each synchronous handler body runs atomically (asyncio runs code between
  `await` points without interleaving).
- `_handle_speech_started` schedules `_cancel_response` with
  `asyncio.create_task`; the handler and that cancel task together form one
  interruption step.
- Cancelling `_response_task` (`task.cancel()` + `await asyncio.wait_for(...,
  timeout=0.1)`) terminates the task within the bounded wait: the
  cancelled coroutine receives `CancelledError` at its next suspension point
  and `_generate_response` catches it and returns immediately without
  further effects.
- `_generate_response` is decomposed at its `await` boundaries into task
  events: the parallel context/history fetch completing (up to the
  interrupt-flag check and TTS connect, lines 261-297), the LLM stream
  ending (lines 334-353), or an exception escaping to the `except` clause
  (lines 357-361).
- Each TTS connection gets a fresh generation number; a TTS audio chunk
  event carries the generation of the connection that produced it and is
  delivered to `_handle_tts_audio` only while that connection's receive
  loop is alive (both `close()` variants cancel the receive loop).
-/

inductive VoiceState
  | idle
  | listening
  | processing
  | speaking
deriving DecidableEq

inductive TaskPhase
  | fetching   -- awaiting retrieval/history, before the interrupt check
  | speaking   -- TTS connected, streaming the LLM response
deriving DecidableEq

structure RespTask where
  taskId : Nat
  phase : TaskPhase
deriving DecidableEq

structure FlowState where
  st : VoiceState
  sttConn : Bool          -- STT client connected (between start and stop)
  interrupted : Bool      -- the `_interrupted` asyncio.Event
  ttsGen : Option Nat     -- generation of the currently open TTS connection
  nextGen : Nat           -- next fresh TTS generation
  tasks : List RespTask   -- live (non-terminated) response tasks
  nextTask : Nat          -- next fresh response-task id
deriving DecidableEq

/-- Externally visible effects of a step (callback invocations and TTS
client teardown). -/
inductive Output
  | stateChange (s : VoiceState)   -- on_state_change
  | interruptCb                    -- on_interrupt
  | audioCb (gen : Nat)            -- on_audio, from TTS connection `gen`
  | errorCb (msg : String)         -- on_error
  | ttsForceClose (gen : Nat)      -- DeepgramTTSClient.close(force=True)
deriving DecidableEq

/-- Events driving the orchestrator. -/
inductive Event
  | start                       -- VoiceFlow.start()
  | stop                        -- VoiceFlow.stop()
  | speechStarted               -- STT SpeechStarted/StartOfTurn callback
  | endOfTurn (t : List Char)   -- STT EndOfTurn callback with transcript
  | taskFetchDone               -- response task: context/history fetched
  | taskStreamEnd               -- response task: LLM stream exhausted
  | taskError (msg : String)    -- response task: exception reached `except`
  | audioArrives (gen : Nat)    -- TTS receive loop delivers an audio chunk
deriving DecidableEq

/-- Python `str.strip()` (whitespace at both ends removed); only emptiness
of the result is consumed by the orchestrator. -/
def pyStrip (l : List Char) : List Char :=
  ((l.dropWhile Char.isWhitespace).reverse.dropWhile Char.isWhitespace).reverse

/-- `VoiceFlow._set_state`: mutate and notify only on an actual change. -/
def setStateAux (s : FlowState) (new : VoiceState) : FlowState × List Output :=
  if s.st = new then (s, []) else ({ s with st := new }, [Output.stateChange new])

/-- Force-close the TTS client if one is open (`close(force=True)` then
`self._tts_client = None`). -/
def forceCloseTTS (s : FlowState) : FlowState × List Output :=
  match s.ttsGen with
  | none => (s, [])
  | some g => ({ s with ttsGen := none }, [Output.ttsForceClose g])

/-- `VoiceFlow._cancel_response`: set the interrupt flag, force-close the
TTS client, cancel the response task and await it briefly (the task then
terminates: `CancelledError` is caught and the coroutine returns). -/
def cancelResponse (s : FlowState) : FlowState × List Output :=
  let s1 := { s with interrupted := true }
  let r := forceCloseTTS s1
  ({ r.1 with tasks := [] }, r.2)

/-- One orchestrator step on an event. -/
def step (s : FlowState) : Event → FlowState × List Output
  | .start =>
      -- VoiceFlow.start(): connect STT, go to LISTENING.  The transport
      -- invokes start on a fresh (idle) flow.
      if s.st = .idle then
        setStateAux { s with sttConn := true } .listening
      else (s, [])
  | .stop =>
      -- VoiceFlow.stop(): cancel any ongoing response, close STT and TTS,
      -- go to IDLE.
      let r1 := cancelResponse s
      let r2 := setStateAux { r1.1 with sttConn := false, ttsGen := none } .idle
      (r2.1, r1.2 ++ r2.2)
  | .speechStarted =>
      -- VoiceFlow._handle_speech_started: only an interruption when state
      -- is SPEAKING; sets the flag, notifies on_interrupt, schedules
      -- _cancel_response, transitions to LISTENING.
      if s.sttConn = true ∧ s.st = .speaking then
        let s1 := { s with interrupted := true }
        let r2 := cancelResponse s1
        let r3 := setStateAux r2.1 .listening
        (r3.1, Output.interruptCb :: (r2.2 ++ r3.2))
      else (s, [])
  | .endOfTurn t =>
      -- VoiceFlow._handle_end_of_turn / start_new_response: ignore empty
      -- transcripts; otherwise supersede any in-flight response (set flag,
      -- force-close TTS, cancel and await the old task), then clear the
      -- flag, go to PROCESSING, and spawn the new response task.
      if s.sttConn = true ∧ pyStrip t ≠ [] then
        let s1 := { s with interrupted := true }
        let r2 := forceCloseTTS s1
        let s3 := { r2.1 with tasks := [], interrupted := false }
        let r4 := setStateAux s3 .processing
        let s5 := r4.1
        ({ s5 with
            tasks := [RespTask.mk s5.nextTask TaskPhase.fetching],
            nextTask := s5.nextTask + 1 }, r2.2 ++ r4.2)
      else (s, [])
  | .taskFetchDone =>
      -- _generate_response after the parallel fetch: if interrupted,
      -- return; else connect a fresh TTS client and go to SPEAKING.
      match s.tasks with
      | [t] =>
          if t.phase = .fetching then
            if s.interrupted then ({ s with tasks := [] }, [])
            else
              let s1 := { s with
                  ttsGen := some s.nextGen,
                  nextGen := s.nextGen + 1,
                  tasks := [{ t with phase := TaskPhase.speaking }] }
              setStateAux s1 .speaking
          else (s, [])
      | _ => (s, [])
  | .taskStreamEnd =>
      -- _generate_response after the LLM stream: flush, close the TTS
      -- client, and (unless interrupted) return to LISTENING.
      match s.tasks with
      | [t] =>
          if t.phase = .speaking then
            if s.interrupted then ({ s with tasks := [], ttsGen := none }, [])
            else
              let s1 := { s with tasks := [], ttsGen := none }
              setStateAux s1 .listening
          else (s, [])
      | _ => (s, [])
  | .taskError msg =>
      -- _generate_response `except Exception`: report via on_error and set
      -- state to LISTENING (the TTS client reference is NOT cleared here).
      match s.tasks with
      | [] => (s, [])
      | _ :: _ =>
          let s1 := { s with tasks := [] }
          let r2 := setStateAux s1 .listening
          (r2.1, Output.errorCb msg :: r2.2)
  | .audioArrives g =>
      -- DeepgramTTSClient._receive_loop forwards the chunk only while that
      -- connection is alive; _handle_tts_audio then drops it if the
      -- interrupt flag is set.
      if s.ttsGen = some g ∧ s.interrupted = false then (s, [Output.audioCb g])
      else (s, [])

/-- A fresh `VoiceFlow` instance. -/
def initFlow : FlowState :=
  { st := .idle, sttConn := false, interrupted := false, ttsGen := none,
    nextGen := 0, tasks := [], nextTask := 0 }

/-- Run a sequence of events, collecting all outputs in order. -/
def run (s : FlowState) : List Event → FlowState × List Output
  | [] => (s, [])
  | e :: evs =>
      let r1 := step s e
      let r2 := run r1.1 evs
      (r2.1, r1.2 ++ r2.2)

/-- The trace of states visited while running a sequence of events. -/
def runStates (s : FlowState) : List Event → List FlowState
  | [] => [s]
  | e :: evs => s :: runStates (step s e).1 evs


/-- Invariant of reachable orchestrator states. -/
def WF (s : FlowState) : Prop :=
  s.tasks.length ≤ 1 ∧
  (∀ g, s.ttsGen = some g → g < s.nextGen) ∧
  (s.sttConn = true → s.st ≠ VoiceState.idle) ∧
  (s.st ≠ VoiceState.idle → s.sttConn = true) ∧
  (∀ t ∈ s.tasks,
      (t.phase = TaskPhase.fetching → s.st = VoiceState.processing) ∧
      (t.phase = TaskPhase.speaking → s.st = VoiceState.speaking) ∧
      t.taskId < s.nextTask) ∧
  (s.tasks ≠ [] → s.interrupted = false) ∧
  ((s.st = VoiceState.processing ∨ s.st = VoiceState.speaking) → s.tasks ≠ [])

theorem wf_init : WF initFlow := by
  refine ⟨?_, ?_, ?_, ?_, ?_, ?_, ?_⟩ <;> simp [initFlow, WF]

theorem wf_step {s : FlowState} (hw : WF s) (e : Event) : WF (step s e).1 := by
  obtain ⟨st, conn, intr, tg, ng, tk, nt⟩ := s
  obtain ⟨h1, h2, h3, h4, h5, h6, h7⟩ := hw
  simp only at h1 h2 h3 h4 h5 h6 h7
  cases e with
  | start =>
      by_cases hid : st = VoiceState.idle
      · subst hid
        have htk : tk = [] := by
          cases htk : tk with
          | nil => rfl
          | cons a l =>
              exfalso
              have ha := h5 a (by rw [htk]; exact List.mem_cons_self a l)
              cases hph : a.phase with
              | fetching => exact absurd (ha.1 hph) (by simp)
              | speaking => exact absurd (ha.2.1 hph) (by simp)
        subst htk
        have hres : (step (FlowState.mk VoiceState.idle conn intr tg ng [] nt) Event.start).1
            = FlowState.mk VoiceState.listening true intr tg ng [] nt := by
          simp [step, setStateAux]
        rw [hres]
        refine ⟨by simp, by simpa using h2, by simp, by simp, by simp, by simp, by simp⟩
      · simp only [step, if_neg hid]
        exact ⟨h1, h2, h3, h4, h5, h6, h7⟩
  | stop =>
      have hres : (step (FlowState.mk st conn intr tg ng tk nt) Event.stop).1
          = FlowState.mk VoiceState.idle false true none ng [] nt := by
        cases tg <;> by_cases hid : st = VoiceState.idle <;>
          simp [step, cancelResponse, forceCloseTTS, setStateAux, hid]
      rw [hres]
      refine ⟨by simp, ?_, by simp, by simp, by simp, by simp, by simp⟩
      · intro g hg
        exfalso
        cases hg
  | speechStarted =>
      by_cases hguard : conn = true ∧ st = VoiceState.speaking
      · obtain ⟨hc, hsp⟩ := hguard
        subst hc hsp
        have hres : (step (FlowState.mk VoiceState.speaking true intr tg ng tk nt)
            Event.speechStarted).1
            = FlowState.mk VoiceState.listening true true none ng [] nt := by
          cases tg <;> simp [step, cancelResponse, forceCloseTTS, setStateAux]
        rw [hres]
        refine ⟨by simp, ?_, by simp, by simp, by simp, by simp, by simp⟩
        · intro g hg
          exfalso
          cases hg
      · have hres : step (FlowState.mk st conn intr tg ng tk nt) Event.speechStarted
            = (FlowState.mk st conn intr tg ng tk nt, []) := by
          simp only [step]
          rw [if_neg (by exact hguard)]
        rw [hres]
        exact ⟨h1, h2, h3, h4, h5, h6, h7⟩
  | endOfTurn t =>
      by_cases hguard : conn = true ∧ pyStrip t ≠ []
      · obtain ⟨hc, hne⟩ := hguard
        subst hc
        have hres : (step (FlowState.mk st true intr tg ng tk nt) (Event.endOfTurn t)).1
            = FlowState.mk VoiceState.processing true false none ng
                [RespTask.mk nt TaskPhase.fetching] (nt + 1) := by
          cases tg <;> by_cases hpr : st = VoiceState.processing <;>
            simp [step, forceCloseTTS, setStateAux, hne, hpr]
        rw [hres]
        refine ⟨by simp, ?_, by simp, by simp, ?_, by simp, by simp⟩
        · intro g hg
          exfalso
          cases hg
        · intro x hx
          simp only [List.mem_singleton] at hx
          subst hx
          exact ⟨fun _ => rfl, by simp, by simp⟩
      · have hres : step (FlowState.mk st conn intr tg ng tk nt) (Event.endOfTurn t)
            = (FlowState.mk st conn intr tg ng tk nt, []) := by
          simp only [step]
          rw [if_neg (by exact hguard)]
        rw [hres]
        exact ⟨h1, h2, h3, h4, h5, h6, h7⟩
  | taskFetchDone =>
      match htk : tk with
      | [] =>
          simp only [step]
          exact ⟨by simp, h2, h3, h4, by simp, by simp, by
            intro hst
            exact absurd (h7 hst) (by simp)⟩
      | a :: b :: l =>
          simp only [step]
          exact ⟨by simpa using h1, h2, h3, h4, by simpa using h5, by simpa using h6,
            by simpa using h7⟩
      | [a] =>
          have ha := h5 a (by simp)
          have hint : intr = false := h6 (by simp)
          subst hint
          cases hph : a.phase with
          | speaking =>
              have hres : step (FlowState.mk st conn false tg ng [a] nt) Event.taskFetchDone
                  = (FlowState.mk st conn false tg ng [a] nt, []) := by
                simp [step, hph]
              rw [hres]
              exact ⟨h1, h2, h3, h4, h5, h6, h7⟩
          | fetching =>
              have hst : st = VoiceState.processing := ha.1 hph
              subst hst
              have hres : (step (FlowState.mk VoiceState.processing conn false tg ng [a] nt)
                  Event.taskFetchDone).1
                  = FlowState.mk VoiceState.speaking conn false (some ng) (ng + 1)
                      [RespTask.mk a.taskId TaskPhase.speaking] nt := by
                simp [step, hph, setStateAux]
              rw [hres]
              have hconn : conn = true := h4 (by simp)
              refine ⟨by simp, ?_, by simp [hconn], by simp [hconn], ?_, by simp, by simp⟩
              · intro g hg
                simp only [Option.some.injEq] at hg
                subst hg
                simp
              · intro x hx
                simp only [List.mem_singleton] at hx
                subst hx
                exact ⟨by simp, fun _ => rfl, by simpa using (ha.2.2)⟩
  | taskStreamEnd =>
      match htk : tk with
      | [] =>
          simp only [step]
          exact ⟨by simp, h2, h3, h4, by simp, by simp, by
            intro hst
            exact absurd (h7 hst) (by simp)⟩
      | a :: b :: l =>
          simp only [step]
          exact ⟨by simpa using h1, h2, h3, h4, by simpa using h5, by simpa using h6,
            by simpa using h7⟩
      | [a] =>
          have ha := h5 a (by simp)
          have hint : intr = false := h6 (by simp)
          subst hint
          cases hph : a.phase with
          | fetching =>
              have hres : step (FlowState.mk st conn false tg ng [a] nt) Event.taskStreamEnd
                  = (FlowState.mk st conn false tg ng [a] nt, []) := by
                simp [step, hph]
              rw [hres]
              exact ⟨h1, h2, h3, h4, h5, h6, h7⟩
          | speaking =>
              have hst : st = VoiceState.speaking := ha.2.1 hph
              subst hst
              have hconn : conn = true := h4 (by simp)
              have hres : (step (FlowState.mk VoiceState.speaking conn false tg ng [a] nt)
                  Event.taskStreamEnd).1
                  = FlowState.mk VoiceState.listening conn false none ng [] nt := by
                simp [step, hph, setStateAux]
              rw [hres]
              refine ⟨by simp, ?_, by simp [hconn], by simp [hconn], by simp, by simp, by simp⟩
              · intro g hg
                exfalso
                cases hg
  | taskError msg =>
      match htk : tk with
      | [] =>
          simp only [step]
          exact ⟨by simp, h2, h3, h4, by simp, by simp, by
            intro hst
            exact absurd (h7 hst) (by simp)⟩
      | a :: l =>
          have ha := h5 a (by simp)
          have hst : st = VoiceState.processing ∨ st = VoiceState.speaking := by
            cases hph : a.phase with
            | fetching => exact Or.inl (ha.1 hph)
            | speaking => exact Or.inr (ha.2.1 hph)
          have hconn : conn = true := by
            apply h4
            rcases hst with h | h <;> subst h <;> simp
          have hres : (step (FlowState.mk st conn intr tg ng (a :: l) nt)
              (Event.taskError msg)).1
              = FlowState.mk VoiceState.listening conn intr tg ng [] nt := by
            by_cases hl : st = VoiceState.listening <;>
              simp [step, setStateAux, hl]
          rw [hres]
          exact ⟨by simp, h2, by simp [hconn], by simp [hconn], by simp, by simp, by simp⟩
  | audioArrives g =>
      by_cases hguard : tg = some g ∧ intr = false
      · have hres : step (FlowState.mk st conn intr tg ng tk nt) (Event.audioArrives g)
            = (FlowState.mk st conn intr tg ng tk nt, [Output.audioCb g]) := by
          simp only [step]
          rw [if_pos (by exact hguard)]
        rw [hres]
        exact ⟨h1, h2, h3, h4, h5, h6, h7⟩
      · have hres : step (FlowState.mk st conn intr tg ng tk nt) (Event.audioArrives g)
            = (FlowState.mk st conn intr tg ng tk nt, []) := by
          simp only [step]
          rw [if_neg (by exact hguard)]
        rw [hres]
        exact ⟨h1, h2, h3, h4, h5, h6, h7⟩


theorem run_cons (s : FlowState) (e : Event) (evs : List Event) :
    run s (e :: evs) = ((run (step s e).1 evs).1, (step s e).2 ++ (run (step s e).1 evs).2) :=
  rfl

theorem wf_run_from {s : FlowState} (hs : WF s) :
    ∀ evs : List Event, WF (run s evs).1 := by
  intro evs
  induction evs generalizing s with
  | nil => exact hs
  | cons e evs ih => exact ih (wf_step hs e)

theorem wf_run (evs : List Event) : WF (run initFlow evs).1 :=
  wf_run_from wf_init evs

theorem wf_runStates_from {s : FlowState} (hs : WF s) :
    ∀ evs : List Event, ∀ u ∈ runStates s evs, WF u := by
  intro evs
  induction evs generalizing s with
  | nil =>
      intro u hu
      simp only [runStates, List.mem_singleton] at hu
      subst hu
      exact hs
  | cons e evs ih =>
      intro u hu
      simp only [runStates, List.mem_cons] at hu
      rcases hu with rfl | hu
      · exact hs
      · exact ih (wf_step hs e) u hu

/-- Once a TTS generation is retired (its connection closed, its number
below the fresh counter), no later step can deliver audio for it. -/
theorem dead_gen_step {s : FlowState} {g0 : Nat} (e : Event)
    (h1 : g0 < s.nextGen) (h2 : s.ttsGen ≠ some g0) :
    g0 < (step s e).1.nextGen ∧ (step s e).1.ttsGen ≠ some g0 ∧
    Output.audioCb g0 ∉ (step s e).2 := by
  obtain ⟨st, conn, intr, tg, ng, tk, nt⟩ := s
  simp only at h1 h2
  cases e with
  | start =>
      by_cases hid : st = VoiceState.idle <;>
        simp [step, setStateAux, hid, h1, h2]
  | stop =>
      cases tg <;> by_cases hid : st = VoiceState.idle <;>
        simp [step, cancelResponse, forceCloseTTS, setStateAux, hid, h1]
  | speechStarted =>
      by_cases hguard : conn = true ∧ st = VoiceState.speaking
      · obtain ⟨hc, hsp⟩ := hguard
        subst hc hsp
        cases tg <;>
          simp [step, cancelResponse, forceCloseTTS, setStateAux, h1]
      · have hres : step (FlowState.mk st conn intr tg ng tk nt) Event.speechStarted
            = (FlowState.mk st conn intr tg ng tk nt, []) := by
          simp only [step]
          rw [if_neg (by exact hguard)]
        simp [hres, h1, h2]
  | endOfTurn t =>
      by_cases hguard : conn = true ∧ pyStrip t ≠ []
      · obtain ⟨hc, hne⟩ := hguard
        subst hc
        cases tg <;> by_cases hpr : st = VoiceState.processing <;>
          simp [step, forceCloseTTS, setStateAux, hne, hpr, h1]
      · have hres : step (FlowState.mk st conn intr tg ng tk nt) (Event.endOfTurn t)
            = (FlowState.mk st conn intr tg ng tk nt, []) := by
          simp only [step]
          rw [if_neg (by exact hguard)]
        simp [hres, h1, h2]
  | taskFetchDone =>
      match tk with
      | [] => simp [step, h1, h2]
      | a :: b :: l => simp [step, h1, h2]
      | [a] =>
          cases hph : a.phase with
          | speaking => simp [step, hph, h1, h2]
          | fetching =>
              cases hint : intr with
              | true => simp [step, hph, hint, h1, h2]
              | false =>
                  by_cases hsp : st = VoiceState.speaking <;>
                    simp [step, hph, hint, setStateAux, hsp, h1, h2] <;> omega
  | taskStreamEnd =>
      match tk with
      | [] => simp [step, h1, h2]
      | a :: b :: l => simp [step, h1, h2]
      | [a] =>
          cases hph : a.phase with
          | fetching => simp [step, hph, h1, h2]
          | speaking =>
              cases hint : intr with
              | true => simp [step, hph, hint, h1, h2]
              | false =>
                  by_cases hl : st = VoiceState.listening <;>
                    simp [step, hph, hint, setStateAux, hl, h1]
  | taskError msg =>
      match tk with
      | [] => simp [step, h1, h2]
      | a :: l =>
          by_cases hl : st = VoiceState.listening <;>
            simp [step, setStateAux, hl, h1, h2]
  | audioArrives g =>
      by_cases hguard : tg = some g ∧ intr = false
      · have hres : step (FlowState.mk st conn intr tg ng tk nt) (Event.audioArrives g)
            = (FlowState.mk st conn intr tg ng tk nt, [Output.audioCb g]) := by
          simp only [step]
          rw [if_pos (by exact hguard)]
        rw [hres]
        refine ⟨h1, h2, ?_⟩
        simp only [List.mem_singleton]
        intro hcontra
        apply h2
        rw [hguard.1]
        injection hcontra with h
        rw [h]
      · have hres : step (FlowState.mk st conn intr tg ng tk nt) (Event.audioArrives g)
            = (FlowState.mk st conn intr tg ng tk nt, []) := by
          simp only [step]
          rw [if_neg (by exact hguard)]
        simp [hres, h1, h2]

theorem dead_gen_run {g0 : Nat} :
    ∀ (evs : List Event) (s : FlowState), g0 < s.nextGen → s.ttsGen ≠ some g0 →
      Output.audioCb g0 ∉ (run s evs).2 := by
  intro evs
  induction evs with
  | nil =>
      intro s _ _
      simp [run]
  | cons e evs ih =>
      intro s h1 h2
      obtain ⟨hg1, hg2, hg3⟩ := dead_gen_step e h1 h2
      rw [run_cons]
      simp only [List.mem_append]
      rintro (h | h)
      · exact hg3 h
      · exact ih (step s e).1 hg1 hg2 h


theorem step_speech_interrupt {s : FlowState} {g0 : Nat} (hconn : s.sttConn = true)
    (hsp : s.st = VoiceState.speaking) (hg : s.ttsGen = some g0) :
    step s Event.speechStarted
      = (FlowState.mk VoiceState.listening s.sttConn true none s.nextGen [] s.nextTask,
         [Output.interruptCb, Output.ttsForceClose g0,
          Output.stateChange VoiceState.listening]) := by
  obtain ⟨st, conn, intr, tg, ng, tk, nt⟩ := s
  simp only at hconn hsp hg
  subst hconn hsp hg
  simp [step, cancelResponse, forceCloseTTS, setStateAux]

/-- C1: if the speech-started event fires while the orchestrator is
Speaking, then in that interruption step the interrupt flag is set, the
interrupt callback is notified, the synthesis client is force-closed
(non-graceful), the state becomes Listening, and no audio callback for the
preempted response task's synthesis connection ever fires afterwards,
whatever events follow. -/
theorem interruption_property (evs0 evs : List Event) (g0 : Nat)
    (hsp : (run initFlow evs0).1.st = VoiceState.speaking)
    (hg : (run initFlow evs0).1.ttsGen = some g0) :
    (step (run initFlow evs0).1 Event.speechStarted).1.interrupted = true ∧
    Output.interruptCb ∈ (step (run initFlow evs0).1 Event.speechStarted).2 ∧
    Output.ttsForceClose g0 ∈ (step (run initFlow evs0).1 Event.speechStarted).2 ∧
    (step (run initFlow evs0).1 Event.speechStarted).1.ttsGen = none ∧
    (step (run initFlow evs0).1 Event.speechStarted).1.st = VoiceState.listening ∧
    Output.audioCb g0 ∉ (run (step (run initFlow evs0).1 Event.speechStarted).1 evs).2 := by
  have hw := wf_run evs0
  have hconn : (run initFlow evs0).1.sttConn = true :=
    hw.2.2.2.1 (by rw [hsp]; simp)
  have hlt : g0 < (run initFlow evs0).1.nextGen := hw.2.1 g0 hg
  rw [step_speech_interrupt hconn hsp hg]
  refine ⟨rfl, by simp, by simp, rfl, rfl, ?_⟩
  exact dead_gen_run evs _ hlt (by simp)

/-- Witness for C1: reach Speaking via start, a confirmed turn, and the
fetch completing; then interrupt and observe that a stale audio chunk from
the preempted TTS connection is not delivered. -/
theorem interruption_property_witness :
    (run initFlow [Event.start, Event.endOfTurn ['h','i'], Event.taskFetchDone]).1.st
      = VoiceState.speaking ∧
    (run initFlow [Event.start, Event.endOfTurn ['h','i'], Event.taskFetchDone]).1.ttsGen
      = some 0 ∧
    Output.audioCb 0 ∉ (run (step (run initFlow [Event.start, Event.endOfTurn ['h','i'],
      Event.taskFetchDone]).1 Event.speechStarted).1 [Event.audioArrives 0]).2 := by
  refine ⟨by decide, by decide, ?_⟩
  exact (interruption_property [Event.start, Event.endOfTurn ['h','i'], Event.taskFetchDone]
    [Event.audioArrives 0] 0 (by decide) (by decide)).2.2.2.2.2

theorem step_endOfTurn_eq {s : FlowState} {g0 : Nat} {t : List Char}
    (hconn : s.sttConn = true) (ht : pyStrip t ≠ []) (hg : s.ttsGen = some g0) :
    (step s (Event.endOfTurn t)).1
      = FlowState.mk VoiceState.processing s.sttConn false none s.nextGen
          [RespTask.mk s.nextTask TaskPhase.fetching] (s.nextTask + 1) ∧
    Output.ttsForceClose g0 ∈ (step s (Event.endOfTurn t)).2 := by
  obtain ⟨st, conn, intr, tg, ng, tk, nt⟩ := s
  simp only at hconn hg
  subst hconn hg
  by_cases hpr : st = VoiceState.processing <;>
    simp [step, forceCloseTTS, setStateAux, ht, hpr]

/-- C2: along every event sequence at most one non-terminated response task
exists at any instant; when a confirmed end of turn supersedes an in-flight
response, the superseding step force-closes the synthesis client, replaces
the old task (whose id is strictly older than the new task's) with the
single fresh task, and no audio from the superseded task's synthesis
connection is ever emitted after the new task starts. -/
theorem single_response_task (evs1 evs2 : List Event) (t : List Char) (g0 : Nat)
    (hconn : (run initFlow evs1).1.sttConn = true)
    (ht : pyStrip t ≠ [])
    (hg : (run initFlow evs1).1.ttsGen = some g0) :
    (∀ u ∈ runStates initFlow (evs1 ++ Event.endOfTurn t :: evs2), u.tasks.length ≤ 1) ∧
    Output.ttsForceClose g0 ∈ (step (run initFlow evs1).1 (Event.endOfTurn t)).2 ∧
    (step (run initFlow evs1).1 (Event.endOfTurn t)).1.tasks
      = [RespTask.mk (run initFlow evs1).1.nextTask TaskPhase.fetching] ∧
    (∀ tsk ∈ (run initFlow evs1).1.tasks,
      tsk.taskId < (run initFlow evs1).1.nextTask) ∧
    Output.audioCb g0 ∉ (run (step (run initFlow evs1).1 (Event.endOfTurn t)).1 evs2).2 := by
  have hw := wf_run evs1
  obtain ⟨heq, hmem⟩ := step_endOfTurn_eq hconn ht hg
  refine ⟨?_, hmem, by rw [heq], fun tsk htsk => (hw.2.2.2.2.1 tsk htsk).2.2, ?_⟩
  · intro u hu
    exact (wf_runStates_from wf_init _ u hu).1
  · have hlt : g0 < (run initFlow evs1).1.nextGen := hw.2.1 g0 hg
    rw [heq]
    exact dead_gen_run evs2 _ hlt (by simp)

/-- Witness for C2: a second confirmed turn arrives while the first
response is speaking on TTS generation 0; afterwards a stale generation-0
audio chunk is not delivered. -/
theorem single_response_task_witness :
    (run initFlow [Event.start, Event.endOfTurn ['h','i'],
        Event.taskFetchDone]).1.sttConn = true ∧
    pyStrip ['g','o'] ≠ [] ∧
    Output.audioCb 0 ∉ (run (step (run initFlow [Event.start, Event.endOfTurn ['h','i'],
        Event.taskFetchDone]).1 (Event.endOfTurn ['g','o'])).1 [Event.audioArrives 0]).2 := by
  refine ⟨by decide, by decide, ?_⟩
  exact (single_response_task [Event.start, Event.endOfTurn ['h','i'], Event.taskFetchDone]
    [Event.audioArrives 0] ['g','o'] 0 (by decide) (by decide) (by decide)).2.2.2.2


/-- The transition relation the specification claims: Idle→Listening (on
start), Listening→Processing (turn boundary), Processing→Speaking
(synthesis start), Speaking→Listening (completion or interruption), any
state→Idle (on stop). -/
def claimedTransition (a b : VoiceState) : Bool :=
  match a, b with
  | VoiceState.idle, VoiceState.listening => true
  | VoiceState.listening, VoiceState.processing => true
  | VoiceState.processing, VoiceState.speaking => true
  | VoiceState.speaking, VoiceState.listening => true
  | _, VoiceState.idle => true
  | _, _ => false

/-- The transition relation the code actually realizes: the claimed
transitions plus Speaking→Processing (a new confirmed turn supersedes the
response while it is speaking) and Processing→Listening (a response-task
error during processing). -/
def amendedTransition (a b : VoiceState) : Bool :=
  claimedTransition a b ||
    (match a, b with
     | VoiceState.speaking, VoiceState.processing => true
     | VoiceState.processing, VoiceState.listening => true
     | _, _ => false)

/-- Every adjacent pair of a state trace is either no change or a
transition allowed by `f`. -/
def transitionsOKBy (f : VoiceState → VoiceState → Bool) : List VoiceState → Bool
  | [] => true
  | [_] => true
  | a :: b :: l => (a == b || f a b) && transitionsOKBy f (b :: l)

/-- C3 counterexample: a run in which a confirmed end of turn arrives while
the orchestrator is Speaking performs the state change Speaking→Processing,
which is not among the five claimed transitions. -/
theorem voiceState_transitions_counterexample :
    transitionsOKBy claimedTransition
        ((runStates initFlow [Event.start, Event.endOfTurn ['h','i'], Event.taskFetchDone,
          Event.endOfTurn ['g','o']]).map FlowState.st) = false ∧
    (runStates initFlow [Event.start, Event.endOfTurn ['h','i'], Event.taskFetchDone,
        Event.endOfTurn ['g','o']]).map FlowState.st
      = [VoiceState.idle, VoiceState.listening, VoiceState.processing,
         VoiceState.speaking, VoiceState.processing] := by
  refine ⟨by decide, by decide⟩

theorem step_transition_ok {s : FlowState} (hw : WF s) (e : Event) :
    s.st = (step s e).1.st ∨ amendedTransition s.st (step s e).1.st = true := by
  obtain ⟨st, conn, intr, tg, ng, tk, nt⟩ := s
  obtain ⟨h1, h2, h3, h4, h5, h6, h7⟩ := hw
  simp only at h1 h2 h3 h4 h5 h6 h7
  cases e with
  | start =>
      by_cases hid : st = VoiceState.idle
      · subst hid
        have hres : (step (FlowState.mk VoiceState.idle conn intr tg ng tk nt)
            Event.start).1.st = VoiceState.listening := by
          simp [step, setStateAux]
        rw [hres]
        right
        rfl
      · have hres : step (FlowState.mk st conn intr tg ng tk nt) Event.start
            = (FlowState.mk st conn intr tg ng tk nt, []) := by
          simp only [step]
          rw [if_neg hid]
        rw [hres]
        left
        rfl
  | stop =>
      have hres : (step (FlowState.mk st conn intr tg ng tk nt) Event.stop).1.st
          = VoiceState.idle := by
        cases tg <;> by_cases hid : st = VoiceState.idle <;>
          simp [step, cancelResponse, forceCloseTTS, setStateAux, hid]
      rw [hres]
      right
      cases st <;> rfl
  | speechStarted =>
      by_cases hguard : conn = true ∧ st = VoiceState.speaking
      · obtain ⟨hc, hsp⟩ := hguard
        subst hc hsp
        have hres : (step (FlowState.mk VoiceState.speaking true intr tg ng tk nt)
            Event.speechStarted).1.st = VoiceState.listening := by
          cases tg <;> simp [step, cancelResponse, forceCloseTTS, setStateAux]
        rw [hres]
        right
        rfl
      · have hres : step (FlowState.mk st conn intr tg ng tk nt) Event.speechStarted
            = (FlowState.mk st conn intr tg ng tk nt, []) := by
          simp only [step]
          rw [if_neg (by exact hguard)]
        rw [hres]
        left
        rfl
  | endOfTurn t =>
      by_cases hguard : conn = true ∧ pyStrip t ≠ []
      · obtain ⟨hc, hne⟩ := hguard
        subst hc
        have hres : (step (FlowState.mk st true intr tg ng tk nt)
            (Event.endOfTurn t)).1.st = VoiceState.processing := by
          cases tg <;> by_cases hpr : st = VoiceState.processing <;>
            simp [step, forceCloseTTS, setStateAux, hne, hpr]
        rw [hres]
        have hnid : st ≠ VoiceState.idle := h3 rfl
        cases st with
        | idle => exact absurd rfl hnid
        | listening => right; rfl
        | processing => left; rfl
        | speaking => right; rfl
      · have hres : step (FlowState.mk st conn intr tg ng tk nt) (Event.endOfTurn t)
            = (FlowState.mk st conn intr tg ng tk nt, []) := by
          simp only [step]
          rw [if_neg (by exact hguard)]
        rw [hres]
        left
        rfl
  | taskFetchDone =>
      match htk : tk with
      | [] => left; rfl
      | a :: b :: l => left; rfl
      | [a] =>
          have ha := h5 a (by simp)
          cases hph : a.phase with
          | speaking =>
              have hres : step (FlowState.mk st conn intr tg ng [a] nt)
                  Event.taskFetchDone = (FlowState.mk st conn intr tg ng [a] nt, []) := by
                simp [step, hph]
              rw [hres]
              left
              rfl
          | fetching =>
              have hst : st = VoiceState.processing := ha.1 hph
              subst hst
              cases hint : intr with
              | true =>
                  have hres : (step (FlowState.mk VoiceState.processing conn true tg ng
                      [a] nt) Event.taskFetchDone).1.st = VoiceState.processing := by
                    simp [step, hph]
                  rw [hres]
                  left
                  rfl
              | false =>
                  have hres : (step (FlowState.mk VoiceState.processing conn false tg ng
                      [a] nt) Event.taskFetchDone).1.st = VoiceState.speaking := by
                    simp [step, hph, setStateAux]
                  rw [hres]
                  right
                  rfl
  | taskStreamEnd =>
      match htk : tk with
      | [] => left; rfl
      | a :: b :: l => left; rfl
      | [a] =>
          have ha := h5 a (by simp)
          cases hph : a.phase with
          | fetching =>
              have hres : step (FlowState.mk st conn intr tg ng [a] nt)
                  Event.taskStreamEnd = (FlowState.mk st conn intr tg ng [a] nt, []) := by
                simp [step, hph]
              rw [hres]
              left
              rfl
          | speaking =>
              have hst : st = VoiceState.speaking := ha.2.1 hph
              subst hst
              cases hint : intr with
              | true =>
                  have hres : (step (FlowState.mk VoiceState.speaking conn true tg ng
                      [a] nt) Event.taskStreamEnd).1.st = VoiceState.speaking := by
                    simp [step, hph]
                  rw [hres]
                  left
                  rfl
              | false =>
                  have hres : (step (FlowState.mk VoiceState.speaking conn false tg ng
                      [a] nt) Event.taskStreamEnd).1.st = VoiceState.listening := by
                    simp [step, hph, setStateAux]
                  rw [hres]
                  right
                  rfl
  | taskError msg =>
      match htk : tk with
      | [] => left; rfl
      | a :: l =>
          have ha := h5 a (by simp)
          have hres : (step (FlowState.mk st conn intr tg ng (a :: l) nt)
              (Event.taskError msg)).1.st = VoiceState.listening := by
            by_cases hl : st = VoiceState.listening <;>
              simp [step, setStateAux, hl]
          rw [hres]
          right
          cases hph : a.phase with
          | fetching => rw [ha.1 hph]; rfl
          | speaking => rw [ha.2.1 hph]; rfl
  | audioArrives g =>
      by_cases hguard : tg = some g ∧ intr = false
      · have hres : step (FlowState.mk st conn intr tg ng tk nt) (Event.audioArrives g)
            = (FlowState.mk st conn intr tg ng tk nt, [Output.audioCb g]) := by
          simp only [step]
          rw [if_pos (by exact hguard)]
        rw [hres]
        left
        rfl
      · have hres : step (FlowState.mk st conn intr tg ng tk nt) (Event.audioArrives g)
            = (FlowState.mk st conn intr tg ng tk nt, []) := by
          simp only [step]
          rw [if_neg (by exact hguard)]
        rw [hres]
        left
        rfl

/-- C3 amended: every conversation-state change performed by any
orchestrator operation, along any event sequence from a fresh flow, is one
of: Idle→Listening (start), Listening→Processing (turn boundary),
Processing→Speaking (synthesis start), Speaking→Listening (completion or
interruption), any state→Idle (stop), plus the two transitions the code
additionally performs: Speaking→Processing (new confirmed turn while
speaking) and Processing→Listening (response-task error while
processing). -/
theorem voiceState_transitions_amended (evs : List Event) :
    transitionsOKBy amendedTransition
      ((runStates initFlow evs).map FlowState.st) = true := by
  have H : ∀ (evs : List Event) (s : FlowState), WF s →
      transitionsOKBy amendedTransition
        ((runStates s evs).map FlowState.st) = true := by
    intro evs
    induction evs with
    | nil =>
        intro s _
        rfl
    | cons e evs ih =>
        intro s hs
        have hhead : ∃ l, runStates (step s e).1 evs = (step s e).1 :: l := by
          cases evs <;> exact ⟨_, rfl⟩
        obtain ⟨l, hl⟩ := hhead
        rw [runStates, hl, List.map_cons, List.map_cons, transitionsOKBy]
        rw [← List.map_cons, ← hl]
        rw [ih (step s e).1 (wf_step hs e)]
        rcases step_transition_ok hs e with h | h
        · rw [← h]
          simp
        · rw [h]
          simp
  exact H evs initFlow wf_init

/-- C4 counterexample: a response task terminated by cancellation (here via
`stop()`) does not leave the conversation state at Listening — `stop`
cancels the live task and sets the state to Idle. -/
theorem respTask_cancel_counterexample :
    (run initFlow [Event.start, Event.endOfTurn ['h','i']]).1.tasks ≠ [] ∧
    (run initFlow [Event.start, Event.endOfTurn ['h','i'], Event.stop]).1.tasks = [] ∧
    (run initFlow [Event.start, Event.endOfTurn ['h','i'], Event.stop]).1.st
      ≠ VoiceState.listening := by
  refine ⟨by decide, by decide, by decide⟩

/-- C4 amended: when a response task ends with an error, the error is
reported via the error callback, the state is set to Listening, and the
task is terminated; and in every reachable state the orchestrator is never
left in Processing or Speaking without a live response task (on
cancellation the cancelling operation itself moves the state on — to
Listening on interruption, to Processing with a fresh live task on
supersession, or to Idle on stop). -/
theorem respTask_abnormal_end_amended (evs : List Event) (s : FlowState) (msg : String)
    (hs : s ∈ runStates initFlow evs) :
    ((s.st = VoiceState.processing ∨ s.st = VoiceState.speaking) → s.tasks ≠ []) ∧
    (s.tasks ≠ [] →
      Output.errorCb msg ∈ (step s (Event.taskError msg)).2 ∧
      (step s (Event.taskError msg)).1.st = VoiceState.listening ∧
      (step s (Event.taskError msg)).1.tasks = []) := by
  have hw := wf_runStates_from wf_init evs s hs
  refine ⟨hw.2.2.2.2.2.2, ?_⟩
  intro hne
  obtain ⟨st, conn, intr, tg, ng, tk, nt⟩ := s
  simp only at hne
  cases tk with
  | nil => exact absurd rfl hne
  | cons a l =>
      by_cases hl : st = VoiceState.listening <;>
        simp [step, setStateAux, hl]

/-- Witness for the amended C4 theorem: a live response task errors out;
the state lands in Listening. -/
theorem respTask_abnormal_end_witness :
    (run initFlow [Event.start, Event.endOfTurn ['h','i']]).1
      ∈ runStates initFlow [Event.start, Event.endOfTurn ['h','i']] ∧
    (run initFlow [Event.start, Event.endOfTurn ['h','i']]).1.tasks ≠ [] ∧
    (step (run initFlow [Event.start, Event.endOfTurn ['h','i']]).1
        (Event.taskError "boom")).1.st = VoiceState.listening := by
  refine ⟨by decide, by decide, ?_⟩
  exact ((respTask_abnormal_end_amended [Event.start, Event.endOfTurn ['h','i']]
    (run initFlow [Event.start, Event.endOfTurn ['h','i']]).1 "boom"
    (by decide)).2 (by decide)).2.1

end Portfolio
